import Mathlib

/-!
# Verification of the cpr conditional-preprocessing engine

Shallow embedding of the hide-set macro expander
(`crates/cpr/src/frontend/expand/iterative.rs`), the preprocessor
expression evaluator (`crates/cpr/src/parser/expr/mod.rs`), the macro
context and include resolver (`crates/cpr/src/parser/mod.rs`), and the
chunk predicates asserted by `src/parser/test_chunks.rs`, together with
proofs and refutations of the specification's claims about them.

Machine integers: the Rust code uses `i64`; arithmetic claims settled
here do not depend on wrap-around, so integers are embedded as `Int`
with Rust division-by-zero panics made explicit as `Option`/`Except`
failures.
-/

namespace Cpr

/-! ## Token model

The frontend token grammar (`crates/cpr/src/frontend/grammar`) is not
present under `src/`; its shape is modelled from the spec's data model
(§3 Token) and from the constructors used by
`frontend/expand/iterative.rs`. -/

/-- Modelled from the spec: the frontend `Token` of §3 — `Name`,
`Integer`, `String`, `Punct`, `Keyword`, `Whitespace`, `Stringize`,
`Paste`, `Defined` — matching the constructors `Name/Int/Str/Pun/WS/
Stringize/Paste/Defined` used by `iterative.rs` (the grammar module
itself is missing from `src/`). -/
inductive Token where
  | name : String → Token
  | int : Int → Token
  | str : String → Token
  | pun : Char → Token
  | kw : String → Token
  | ws : Token
  | stringize : Token
  | paste : Token
  | tdefined : Token
deriving DecidableEq, Repr

/-- Modelled from the spec: the printable form of a token (§3: "Printable
form is the textual representation used during stringization"). -/
def Token.print : Token → String
  | .name s => s
  | .int i => toString i
  | .str s => "\"" ++ s ++ "\""
  | .pun c => String.mk [c]
  | .kw s => s
  | .ws => " "
  | .stringize => "#"
  | .paste => "##"
  | .tdefined => "defined"

/-- A hide set: a set of macro names (spec §3, `HS = HashSet<String>`). -/
abbrev HS := Finset String

/-- Modelled from the spec: `hs_union` from `frontend/expand`
(missing from `src/`), "union over hide sets — standard" (§4.1). -/
def hsUnion (a b : HS) : HS := a ∪ b

/-- Modelled from the spec: `hs_intersection` from `frontend/expand`
(missing from `src/`), "intersection over hide sets — standard" (§4.1). -/
def hsInter (a b : HS) : HS := a ∩ b

/-- A token paired with its hide set (spec §3 THS; `THS(Token, HS)`). -/
structure THS where
  tok : Token
  hs : HS
deriving DecidableEq

/-- Modelled from the spec: `THS::hides` (missing from `src/`): whether
the hide set contains the given token's own name ("If the head's hide
set contains the head's own name, emit verbatim", §4.2 step 2). -/
def THS.hides (t : THS) (tok : Token) : Bool :=
  match tok with
  | .name n => decide (n ∈ t.hs)
  | _ => false

/-- Modelled from the spec: a single-token lexer used by `glue` to
re-tokenize the concatenation of two printable forms (§4.1): an all-digit
pasting yields an integer token, anything else an identifier-like name. -/
def retokenizeSingle (s : String) : Token :=
  if s.length > 0 ∧ s.data.all Char.isDigit then
    .int (s.toNat!)
  else
    .name s

/-- Modelled from the spec: `THS::glue` (missing from `src/`):
"produces a single token whose textual form is `print(l) ++ print(r)`
re-tokenized under the lexer's rule for a single token; the resulting
hide set is `hs(l) ∩ hs(r)`" (§4.1). -/
def THS.glue (l r : THS) : THS :=
  ⟨retokenizeSingle (l.tok.print ++ r.tok.print), hsInter l.hs r.hs⟩

/-! ## Macro definitions and frontend context

`crates/cpr/src/frontend` (the `Context`, `SymbolState` and `Define`
used by the expander) is not under `src/`; modelled from the spec
(§3 Macro definition, Macro table / context) and from how
`iterative.rs` consumes them. -/

/-- Modelled from the spec: the parameter table of a function-like
macro — a "mapping from parameter name to positional index" (§3),
consumed through `params.names.get(name)` in `iterative.rs`. -/
structure FormalParams where
  names : List (String × Nat)
deriving DecidableEq

def FormalParams.get (fp : FormalParams) (name : String) : Option Nat :=
  (fp.names.find? (fun p => p.1 = name)).map (·.2)

/-- Modelled from the spec: the frontend `Define` (§3 Macro definition):
object-like (name, replacement) or function-like (name, parameters,
replacement), as matched by `expand_single_macro_invocation`. -/
inductive FDefine where
  | objectLike (name : String) (value : List Token)
  | functionLike (name : String) (params : FormalParams) (value : List Token)
deriving DecidableEq

def FDefine.name : FDefine → String
  | .objectLike n _ => n
  | .functionLike n _ _ => n

/-- Modelled from the spec: the frontend `SymbolState` as consumed by
`iterative.rs` (`Undefined` or `Defined(def)`). -/
inductive FSymbolState where
  | undefined
  | defined (d : FDefine)
deriving DecidableEq

/-- Modelled from the spec: the frontend macro context — a "Name →
definition mapping" (§3) with `lookup` as used by `expand`. -/
structure FContext where
  defines : List (String × FDefine)

def FContext.lookup (ctx : FContext) (name : String) : FSymbolState :=
  match ctx.defines.find? (fun p => p.1 = name) with
  | some (_, d) => .defined d
  | none => .undefined

/-- `TokenSeq::as_ths`: each raw token paired with an empty hide set
(`iterative.rs` lines 16–24). -/
def asTHS (ts : List Token) : List THS :=
  ts.map (fun t => ⟨t, ∅⟩)

/-- The expander's error taxonomy (`ExpandError`, spec §4.2/§7). -/
inductive ExpandError where
  | invalidDefined (msg : String)
  | invalidStringizing (msg : String)
  | invalidTokenPaste (msg : String)
  | missingParam (msg : String)
  | unclosedInvocation (name : String)
deriving DecidableEq

/-! ## The expander (`iterative.rs`) -/

def isWS (t : THS) : Bool := t.tok = .ws

/-- `skip_ws` (`iterative.rs` lines 261–276): skip whitespace tokens,
returning the skipped run (the `saved` buffer), the first non-whitespace
token if any, and the remaining input. -/
def skipWS (is : List THS) : List THS × Option THS × List THS :=
  match is.dropWhile isWS with
  | [] => (is.takeWhile isWS, none, [])
  | t :: rest => (is.takeWhile isWS, some t, rest)

/-- Push a token onto the last (current) actual argument
(`ParsedActuals::push`). -/
def pushLast (acc : List (List THS)) (t : THS) : List (List THS) :=
  match acc with
  | [] => [[t]]
  | [a] => [a ++ [t]]
  | a :: rest => a :: pushLast rest t

/-- Whitespace trimming applied to each parsed actual after the loop of
`parse_actuals` (`iterative.rs` lines 363–371). -/
def trimWS (a : List THS) : List THS :=
  ((a.dropWhile isWS).reverse.dropWhile isWS).reverse

/-- The loop of `parse_actuals` (`iterative.rs` lines 313–361): scan
until the opening parenthesis is balanced; commas at depth 1 separate
actuals; the closing parenthesis's hide set is recorded on exit. -/
def parseActualsGo (name : String) (depth : Nat) (acc : List (List THS)) :
    List THS → Except ExpandError (List (List THS) × HS × List THS)
  | [] => .error (.unclosedInvocation name)
  | tok :: rest =>
    if depth = 1 then
      match tok.tok with
      | .pun ',' => parseActualsGo name 1 (acc ++ [[]]) rest
      | .pun '(' => parseActualsGo name 2 (pushLast acc tok) rest
      | .pun ')' => .ok (acc, tok.hs, rest)
      | _ => parseActualsGo name 1 (pushLast acc tok) rest
    else
      parseActualsGo name
        (match tok.tok with
         | .pun '(' => depth + 1
         | .pun ')' => depth - 1
         | _ => depth)
        (pushLast acc tok) rest

/-- `parse_actuals` (`iterative.rs` lines 306–374): parse balanced
actuals starting just after the opening parenthesis, then trim leading
and trailing whitespace from each actual. -/
def parseActuals (name : String) (is : List THS) :
    Except ExpandError (List (List THS) × HS × List THS) :=
  match parseActualsGo name 1 [[]] is with
  | .error e => .error e
  | .ok (acc, closeHs, rest) => .ok (acc.map trimWS, closeHs, rest)

/-- The `Params` binding handed to `subst`: formal parameters plus the
parsed actuals (`iterative.rs` lines 376–381). -/
structure SubstParams where
  fp : FormalParams
  ap : List (List THS)

/-- `Params::lookup` (`iterative.rs` lines 383–398): a formal parameter
name resolves to its actual-argument sequence; a formal with no actual
at its index is `MissingMacroParam`; a non-parameter name is `none`. -/
def SubstParams.lookup (p : SubstParams) (name : String) :
    Except ExpandError (Option (List THS)) :=
  match p.fp.get name with
  | some index =>
    match p.ap.get? index with
    | some actual => .ok (some actual)
    | none => .error (.missingParam name)
  | none => .ok none

/-- Pop the true (non-whitespace) left operand for `##` off the output
buffer (`iterative.rs` lines 465–472); the buffer is in emission order,
popping happens at its end. -/
def popNonWS (os : List THS) : Option (THS × List THS) :=
  match os.reverse.dropWhile isWS with
  | [] => none
  | lhs :: rest => some (lhs, rest.reverse)

/-- `subst` (`iterative.rs` lines 400–520): consume the replacement
list with an arguments binding, handling stringize, paste, bare
parameter references, and verbatim tokens whose hide set is extended by
the substitution hide set `hs`. `os` is the output buffer, in emission
order. In the stringize and paste branches the whitespace skipped by
`skip_ws` is dropped (the code never rewinds `saved` there), so they
recurse directly on the suffix of `dropWhile`. -/
def subst (params : Option SubstParams) (hs : HS) :
    List THS → List THS → Except ExpandError (List THS)
  | [], os => .ok os
  | first :: tl, os =>
    match first.tok with
    | .stringize =>
      match hd : tl.dropWhile isWS with
      | [] => .error (.invalidStringizing "encountered EOF after `#`")
      | tok :: rest =>
        match tok.tok with
        | .name pname =>
          match params with
          | some p =>
            match p.lookup pname with
            | .error e => .error e
            | .ok (some sel) =>
              subst params hs rest
                (os ++ [⟨.str (String.join (sel.map (fun t => t.tok.print))), tok.hs⟩])
            | .ok none =>
              -- not a parameter: fall through to the verbatim push of
              -- the `#` token itself; the scanned name is dropped
              subst params hs rest (os ++ [⟨first.tok, first.hs ∪ hs⟩])
          | none =>
            subst params hs rest (os ++ [⟨first.tok, first.hs ∪ hs⟩])
        | _ => .error (.invalidStringizing "expected name after stringizing operator `#`")
    | .paste =>
      match hd : tl.dropWhile isWS with
      | [] => .error (.invalidTokenPaste "encountered EOF immediately after `##`")
      | rhs :: rest =>
        match popNonWS os with
        | none => .error (.invalidTokenPaste "no left-hand-side operand before `##`")
        | some (lhs, osr) =>
          match rhs.tok, params with
          | .name pname, some p =>
            match p.lookup pname with
            | .error e => .error e
            | .ok (some sel) =>
              match sel with
              | [] =>
                .error (.invalidTokenPaste
                  "no right-hand-side operand after `##` (after substituting argument)")
              | r :: restSel =>
                subst params hs rest (osr ++ [THS.glue lhs r] ++ restSel)
            | .ok none => subst params hs rest (osr ++ [THS.glue lhs rhs])
          | _, _ => subst params hs rest (osr ++ [THS.glue lhs rhs])
    | .name pname =>
      match params with
      | some p =>
        match p.lookup pname with
        | .error e => .error e
        | .ok (some sel) => subst params hs tl (os ++ sel)
        | .ok none => subst params hs tl (os ++ [⟨first.tok, first.hs ∪ hs⟩])
      | none => subst params hs tl (os ++ [⟨first.tok, first.hs ∪ hs⟩])
    | _ => subst params hs tl (os ++ [⟨first.tok, first.hs ∪ hs⟩])
termination_by is _ => is.length
decreasing_by
  all_goals simp_wf
  all_goals
    (have h := (List.dropWhile_sublist (l := tl) isWS).length_le
     rw [hd] at h
     simp only [List.length_cons] at h
     omega)

/-- The `'concat_strings` loop of `expand` (`iterative.rs` lines
94–113): greedily absorb whitespace-separated string tokens, collecting
their texts and the union of their hide sets; on a non-string token (or
EOF) the skipped whitespace and that token are rewound, so the input is
returned unchanged. -/
def concatStrings (parts : List String) (hs : HS) (is : List THS) :
    List String × HS × List THS :=
  match hd : is.dropWhile isWS with
  | [] => (parts, hs, is)
  | t :: rest =>
    match t.tok with
    | .str r => concatStrings (parts ++ [r]) (hsUnion hs t.hs) rest
    | _ => (parts, hs, is)
termination_by is.length
decreasing_by
  simp_wf
  have h := (List.dropWhile_sublist (l := is) isWS).length_le
  rw [hd] at h
  simp only [List.length_cons] at h
  omega

/-- The value `defined` evaluates to: 1 if the name is defined in the
context, 0 otherwise (`iterative.rs` lines 185–188). -/
def definedVal (ctx : FContext) (n : String) : Int :=
  match ctx.lookup n with
  | .undefined => 0
  | .defined _ => 1

/-- `expand_defined` (`iterative.rs` lines 137–192): after a `defined`
token accept `NAME` or `( NAME )` (whitespace allowed), returning the
0/1 value and the remaining input. Errors abort the whole expansion, so
the `saved` buffer of `skip_ws` is never rewound here. -/
def expandDefined (ctx : FContext) (tl : List THS) :
    Except ExpandError (Int × List THS) :=
  match skipWS tl with
  | (_, none, _) => .error (.invalidDefined "EOF immediately after `defined`")
  | (_, some next, rest) =>
    match next.tok with
    | .name n => .ok (definedVal ctx n, rest)
    | .pun '(' =>
      match skipWS rest with
      | (_, none, _) => .error (.invalidDefined "EOF immediately after `defined(`")
      | (_, some nx2, rest2) =>
        match nx2.tok with
        | .name n =>
          match skipWS rest2 with
          | (_, none, _) => .error (.invalidDefined "EOF after `defined(NAME`")
          | (_, some nx3, rest3) =>
            match nx3.tok with
            | .pun ')' => .ok (definedVal ctx n, rest3)
            | _ => .error (.invalidDefined "unexpected token after `defined(NAME`")
        | _ => .error (.invalidDefined "unexpected token after `defined(`")
    | _ => .error (.invalidDefined "unexpected token after defined operator")

/-- The hide-set overlay the code builds for a function-like invocation
(`iterative.rs` lines 240–243): `hs_union(hs_intersection(first.1,
closparen_hs), {name})`. -/
def codeOverlay (headHs closeHs : HS) (name : String) : HS :=
  hsUnion (hsInter headHs closeHs) (insert name ∅)

/-- `expand` (`iterative.rs` lines 27–129), with explicit fuel counting
the iterations of the `'expand_all` loop (`none` = fuel exhausted; the
Rust loop has no fuel and simply keeps running). One iteration:
1. empty input: done;
2. head hidden by its own hide set: emit verbatim;
3. head a defined macro name: object-like macros substitute and prepend;
   function-like macros scan for `(` (rewinding and emitting the name
   verbatim if absent), parse actuals, substitute and prepend;
4. head a string: fuse adjacent whitespace-separated strings;
5. head `defined`: evaluate the operator;
6. otherwise emit verbatim. -/
def expandFuel (ctx : FContext) :
    Nat → List THS → List THS → Option (Except ExpandError (List THS))
  | 0, _, _ => none
  | _ + 1, [], os => some (.ok os)
  | fuel + 1, first :: rest, os =>
    if first.hides first.tok then
      expandFuel ctx fuel rest (os ++ [first])
    else
      match first.tok with
      | .name name =>
        match ctx.lookup name with
        | .defined (.objectLike _ value) =>
          match subst none (insert name first.hs) (asTHS value) [] with
          | .error e => some (.error e)
          | .ok temp => expandFuel ctx fuel (temp ++ rest) os
        | .defined (.functionLike dname dparams value) =>
          match skipWS rest with
          | (_, some op, rem) =>
            if op.tok = .pun '(' then
              match parseActuals dname rem with
              | .error e => some (.error e)
              | .ok (actuals, closeHs, rem2) =>
                match subst (some ⟨dparams, actuals⟩)
                    (codeOverlay first.hs closeHs dname) (asTHS value) [] with
                | .error e => some (.error e)
                | .ok temp => expandFuel ctx fuel (temp ++ rem2) os
            else
              expandFuel ctx fuel rest (os ++ [first])
          | (_, none, _) =>
            expandFuel ctx fuel rest (os ++ [first])
        | .undefined => expandFuel ctx fuel rest (os ++ [first])
      | .str s =>
        match concatStrings [s] first.hs rest with
        | (parts, hs2, rest2) =>
          expandFuel ctx fuel rest2 (os ++ [⟨.str (String.join parts), hs2⟩])
      | .tdefined =>
        match expandDefined ctx rest with
        | .error e => some (.error e)
        | .ok (v, rest2) => expandFuel ctx fuel rest2 (os ++ [⟨.int v, first.hs⟩])
      | _ => expandFuel ctx fuel rest (os ++ [first])

/-! ## Preprocessor expressions (`crates/cpr/src/parser/expr/mod.rs`) -/

/-- `BinaryOperator` (`expr/mod.rs` lines 150–184). -/
inductive BinaryOperator where
  | less | lessOrEqual | greater | greaterOrEqual | equals | notEquals
  | bitwiseOr | bitwiseAnd | bitwiseXor
  | add | subtract | multiply | divide | modulo | leftShift | rightShift
deriving DecidableEq, Repr

/-- `Expr` (`expr/mod.rs` lines 136–148): `True`, `False`, `Defined`,
`Symbol`, `Call`, `Binary`, `Integer`, `And`, `Or`, `Not` (the `True`/
`False` constructors are rendered `tru`/`fls` to avoid clashing with the
propositions of the logic). -/
inductive Expr where
  | tru
  | fls
  | edefined : String → Expr
  | symbol : String → Expr
  | call : String → List Expr → Expr
  | binary : BinaryOperator → Expr → Expr → Expr
  | integer : Int → Expr
  | eand : List Expr → Expr
  | eor : List Expr → Expr
  | enot : Expr → Expr
deriving Repr

mutual
/-- Structural equality of expressions (the Rust `PartialEq` derive;
spelled out because `Expr` nests `List`). -/
def beqE : Expr → Expr → Bool
  | .tru, .tru => true
  | .fls, .fls => true
  | .edefined a, .edefined b => a == b
  | .symbol a, .symbol b => a == b
  | .call c1 a1, .call c2 a2 => c1 == c2 && beqListE a1 a2
  | .binary o1 l1 r1, .binary o2 l2 r2 => o1 == o2 && beqE l1 l2 && beqE r1 r2
  | .integer a, .integer b => a == b
  | .eand c1, .eand c2 => beqListE c1 c2
  | .eor c1, .eor c2 => beqListE c1 c2
  | .enot a, .enot b => beqE a b
  | _, _ => false

def beqListE : List Expr → List Expr → Bool
  | [], [] => true
  | x :: xs, y :: ys => beqE x y && beqListE xs ys
  | _, _ => false
end

/-- `BinaryOperator::build` (`expr/mod.rs` lines 186–190). -/
def BinaryOperator.build (op : BinaryOperator) (l r : Expr) : Expr :=
  .binary op l r

/-- The `BitAnd` impl for `Expr` (`expr/mod.rs` lines 302–317):
absorbing/identity elements and `And` flattening. -/
def exprAnd : Expr → Expr → Expr
  | _, .fls => .fls
  | .fls, _ => .fls
  | v, .tru => v
  | .tru, v => v
  | .eand l, .eand r => .eand (l ++ r)
  | .eand c, v => .eand (c ++ [v])
  | v, .eand c => .eand (c ++ [v])
  | l, r => .eand [l, r]

/-- The `BitOr` impl for `Expr` (`expr/mod.rs` lines 319–334). -/
def exprOr : Expr → Expr → Expr
  | _, .tru => .tru
  | .tru, _ => .tru
  | v, .fls => v
  | .fls, v => v
  | .eor l, .eor r => .eor (l ++ r)
  | .eor c, v => .eor (c ++ [v])
  | v, .eor c => .eor (c ++ [v])
  | l, r => .eor [l, r]

/-- The `Not` impl for `Expr` (`expr/mod.rs` lines 336–347):
`Not(Not(v))` unwraps. -/
def exprNot : Expr → Expr
  | .enot v => v
  | v => .enot v

/-- `Expr::bool` (`expr/mod.rs` lines 350–356). -/
def Expr.ofBool (b : Bool) : Expr := if b then .tru else .fls

/-- `Expr::truthiness` (`expr/mod.rs` lines 417–425): `True` and
non-zero integers are truthy, `False` and zero falsy, anything
symbolic is `none`. -/
def Expr.truthiness : Expr → Option Bool
  | .tru => some true
  | .fls => some false
  | .integer i => some (decide (i ≠ 0))
  | _ => none

/-- The symbol states matched by `Expr::constant_fold` (`expr/mod.rs`
lines 370–374): `Blacklisted`, `Unconditional`, `Unknown`. This variant
of `SymbolState` belongs to a revision of `parser/mod.rs` that is not
the one under `src/` (the two prototypes overlap); it is embedded as
its own type, exactly as `constant_fold` consumes it. -/
inductive CFSymbolState where
  | blacklisted
  | unconditional
  | unknown
deriving DecidableEq

/-- Rust `i64` division semantics for the fold: `l / r` panics on a
zero divisor (there is no `EvalError` path in `constant_fold`); the
panic is modelled as `none`. Overflow wrap-around is not modelled (no
claim depends on it). -/
def rustDiv (l r : Int) : Option Int :=
  if r = 0 then none else some (Int.tdiv l r)

/-- Rust `i64` remainder: panics on a zero divisor. -/
def rustMod (l r : Int) : Option Int :=
  if r = 0 then none else some (Int.tmod l r)

/-- Rust `i64 << i64` / `i64 >> i64`: panics (in debug builds) when the
shift amount is negative or ≥ 64. -/
def rustShl (l r : Int) : Option Int :=
  if r < 0 ∨ 64 ≤ r then none else some (l * 2 ^ r.toNat)

def rustShr (l r : Int) : Option Int :=
  if r < 0 ∨ 64 ≤ r then none else some (Int.ediv l (2 ^ r.toNat))

/-- The `Integer ⊕ Integer` arm of `constant_fold` (`expr/mod.rs`
lines 390–407). -/
def foldIntBinary (op : BinaryOperator) (l r : Int) : Option Expr :=
  match op with
  | .add => some (.integer (l + r))
  | .subtract => some (.integer (l - r))
  | .multiply => some (.integer (l * r))
  | .divide => (rustDiv l r).map .integer
  | .modulo => (rustMod l r).map .integer
  | .bitwiseOr => some (.integer (Int.lor l r))
  | .bitwiseAnd => some (.integer (Int.land l r))
  | .bitwiseXor => some (.integer (Int.xor l r))
  | .leftShift => (rustShl l r).map .integer
  | .rightShift => (rustShr l r).map .integer
  | .greater => some (.ofBool (r < l))
  | .greaterOrEqual => some (.ofBool (r ≤ l))
  | .less => some (.ofBool (l < r))
  | .lessOrEqual => some (.ofBool (l ≤ r))
  | .equals => some (.ofBool (l = r))
  | .notEquals => some (.ofBool (l ≠ r))

/-- `Expr::constant_fold` (`expr/mod.rs` lines 359–412), folding
bottom-up against a symbol-lookup function. A Rust panic (division or
modulo by zero, shift overflow) is modelled as `none`; every other path
returns `some`. -/
def constantFold (lk : String → CFSymbolState) : Expr → Option Expr
  | .symbol s => some (.symbol s)
  | .edefined n =>
    match lk n with
    | .blacklisted => some .fls
    | .unconditional => some .tru
    | .unknown => some (.edefined n)
  | .call callee args =>
    match args.attach.mapM (fun ⟨a, _⟩ => constantFold lk a) with
    | none => none
    | some args2 => some (.call callee args2)
  | .tru => some .tru
  | .fls => some .fls
  | .eand c =>
    match c.attach.mapM (fun ⟨a, _⟩ => constantFold lk a) with
    | none => none
    | some c2 => some (.eand c2)
  | .eor c =>
    match c.attach.mapM (fun ⟨a, _⟩ => constantFold lk a) with
    | none => none
    | some c2 => some (.eor c2)
  | .enot v =>
    match constantFold lk v with
    | none => none
    | some .tru => some .fls
    | some .fls => some .tru
    | some (.integer i) => some (.integer (-i - 1))
    | some (.enot w) => some w
    | some w => some (exprNot w)
  | .binary op l r =>
    match constantFold lk l, constantFold lk r with
    | some (.integer li), some (.integer ri) => foldIntBinary op li ri
    | some l2, some r2 => some (op.build l2 r2)
    | _, _ => none
  | .integer i => some (.integer i)

mutual
/-- The Boolean semantics of an `Expr` under an assignment `ρ` of its
atoms: `True`/`False`/`Integer` are literal constants, `And`/`Or`/`Not`
are Boolean structure, and every other node (symbol, definedness test,
call, binary operation) is an atom valued by `ρ`. This is the
"Boolean formula over atoms" reading of §4.3. -/
def evalA (ρ : Expr → Bool) : Expr → Bool
  | .tru => true
  | .fls => false
  | .integer i => decide (i ≠ 0)
  | .eand cs => evalConj ρ cs
  | .eor cs => evalDisj ρ cs
  | .enot e => !evalA ρ e
  | e => ρ e

/-- Conjunction of a clause list under `evalA`. -/
def evalConj (ρ : Expr → Bool) : List Expr → Bool
  | [] => true
  | c :: cs => evalA ρ c && evalConj ρ cs

/-- Disjunction of a clause list under `evalA`. -/
def evalDisj (ρ : Expr → Bool) : List Expr → Bool
  | [] => false
  | c :: cs => evalA ρ c || evalDisj ρ cs
end

/-! ## The Boolean simplifier

`Expr::simplify` (`expr/mod.rs` lines 429–438) delegates to the
`qmc_conversion` module (`Terms`, `as_bool`, `from_bool`), which is not
present under `src/`. The pipeline below is modelled from the spec
(§4.3): "The simplifier lifts an `Expr` into a Boolean formula over
atoms (each distinct non-literal subexpression is assigned a fresh atom
index), runs Quine–McCluskey minimization against the resulting minterm
set, and lowers the minimal cover back into an `Expr`." Lowering uses
the `BitAnd`/`BitOr` constructors of `expr/mod.rs`. -/

mutual
/-- Modelled from the spec: the atoms of an expression — its maximal
non-literal, non-Boolean-structure subexpressions, in order of
occurrence (§4.3 / §9 "memoized atom table keyed by structural
equality of subexpressions"). -/
def subAtoms : Expr → List Expr
  | .tru => []
  | .fls => []
  | .integer _ => []
  | .eand cs => subAtomsList cs
  | .eor cs => subAtomsList cs
  | .enot e => subAtoms e
  | e => [e]

def subAtomsList : List Expr → List Expr
  | [] => []
  | e :: es => subAtoms e ++ subAtomsList es
end

/-- Beq-membership for the atom table. -/
def containsE (xs : List Expr) (x : Expr) : Bool := xs.any (beqE x)

/-- The atom table: distinct atoms only (structural equality). -/
def dedupE : List Expr → List Expr
  | [] => []
  | x :: xs => if containsE xs x then dedupE xs else x :: dedupE xs

/-- Index of an atom in the atom table (first structural match). -/
def indexOfE : List Expr → Expr → Nat
  | [], _ => 0
  | x :: xs, a => if beqE a x then 0 else indexOfE xs a + 1

/-- The atom assignment encoded by a Boolean vector over the atom
table `as`. -/
def vecAssign (as : List Expr) (v : List Bool) : Expr → Bool :=
  fun a => v.getD (indexOfE as a) false

/-- All Boolean vectors of length `k` (the full assignment space of `k`
atoms). -/
def allVecs : Nat → List (List Bool)
  | 0 => [[]]
  | n + 1 => (allVecs n).map (true :: ·) ++ (allVecs n).map (false :: ·)

/-- A Quine–McCluskey implicant: one position per atom, `some b` a
fixed literal, `none` a dash. -/
abbrev Cube := List (Option Bool)

/-- Does a cube cover an assignment vector? -/
def evalCube : Cube → List Bool → Bool
  | [], [] => true
  | none :: c, _ :: v => evalCube c v
  | some x :: c, b :: v => (x == b) && evalCube c v
  | _, _ => false

/-- Modelled from the spec: the Quine–McCluskey merge step — two cubes
combine when they agree everywhere except a single fixed position,
which becomes a dash. -/
def mergeCube : Cube → Cube → Option Cube
  | [], [] => none
  | o1 :: r1, o2 :: r2 =>
    if o1 = o2 then (mergeCube r1 r2).map (o1 :: ·)
    else
      match o1, o2 with
      | some _, some _ => if r1 = r2 then some (none :: r1) else none
      | _, _ => none
  | _, _ => none

/-- One merging round: all pairwise merges, deduplicated. -/
def mergeRound (cubes : List Cube) : List Cube :=
  (cubes.foldr (fun c1 acc => cubes.filterMap (mergeCube c1) ++ acc) []).dedup

/-- Modelled from the spec: Quine–McCluskey prime-implicant generation —
repeatedly merge; cubes that merge with nothing are prime and are set
aside; at most `k` rounds are possible for `k` atoms. -/
def qmGo : Nat → List Cube → List Cube
  | 0, cubes => cubes
  | n + 1, cubes =>
    let m := mergeRound cubes
    if m.isEmpty then cubes
    else
      cubes.filter (fun c1 => cubes.all (fun c2 => (mergeCube c1 c2).isNone)) ++ qmGo n m

/-- One step of cover selection: keep an already-covered minterm,
otherwise choose a prime implicant covering it (falling back to the
minterm's own cube, which is unreachable since every minterm merges up
into some prime). -/
def selStep (primes : List Cube) (chosen : List Cube) (v : List Bool) : List Cube :=
  if chosen.any (fun c => evalCube c v) then chosen
  else
    match primes.find? (fun c => evalCube c v) with
    | some c => chosen ++ [c]
    | none => chosen ++ [v.map some]

/-- Modelled from the spec: cover selection — walk the minterms,
choosing covering prime implicants (essential-then-greedy choice). -/
def selectCover (primes : List Cube) (minterms : List (List Bool)) : List Cube :=
  minterms.foldl (selStep primes) []

/-- One literal of a lowered implicant: a dash contributes nothing, a
fixed position contributes the atom or its negation. -/
def litStep (acc : Expr) (p : Expr × Option Bool) : Expr :=
  match p.2 with
  | none => acc
  | some true => exprAnd acc p.1
  | some false => exprAnd acc (exprNot p.1)

/-- Modelled from the spec: lower one implicant back into an `Expr` —
the conjunction (via the `BitAnd` constructor) of its fixed literals
over the atom table. -/
def cubeExpr (as : List Expr) (c : Cube) : Expr :=
  (as.zip c).foldl litStep .tru

/-- One implicant of the lowered cover. -/
def orStep (as : List Expr) (acc : Expr) (c : Cube) : Expr :=
  exprOr acc (cubeExpr as c)

/-- Modelled from the spec: lower a cover back into an `Expr` — the
disjunction (via the `BitOr` constructor) of its implicants. -/
def lowerCover (as : List Expr) (cover : List Cube) : Expr :=
  cover.foldl (orStep as) .fls

/-- The memoized atom table of an expression: its distinct atoms, in
order of first occurrence (§9: "memoized atom table keyed by structural
equality of subexpressions"). -/
def atomTable (e : Expr) : List Expr := dedupE (subAtoms e)

/-- The minterm set of an expression over its atom table: the
assignments of the atoms under which it evaluates true. -/
def mintermList (e : Expr) : List (List Bool) :=
  (allVecs (atomTable e).length).filter (fun v => evalA (vecAssign (atomTable e) v) e)

/-- Modelled from the spec: `Expr::simplify` (`expr/mod.rs` lines
429–438; the `qmc_conversion` module it calls is missing from `src/`):
lift to a Boolean formula over the atom table, enumerate the minterm
set, run Quine–McCluskey, and lower the resulting cover. -/
def simplify (e : Expr) : Expr :=
  lowerCover (atomTable e)
    (selectCover (qmGo (atomTable e).length ((mintermList e).map (·.map some)))
      (mintermList e))

/-! ## Chunk predicates (`src/parser/test_chunks.rs`)

The chunker of the `src/src` prototype (`ParsedUnit::chunks`) is not
under `src/`; the expected chunk predicates asserted by its tests are.
`expr("FOO")` parses a bare identifier to `Expr::Symbol` (see
`test_expr_parser.rs`), `&` and `!` are the `BitAnd`/`Not`
constructors. -/

/-- The chunk predicates the `single_atom_strands` test expects
(`test_chunks.rs` lines 105–119): `FOO` for `int foo();` and `BAR` for
`int bar();`. -/
def singleAtomStrandsPreds : List Expr := [.symbol "FOO", .symbol "BAR"]

/-- The chunk predicates the `nested_ifdefs` test expects
(`test_chunks.rs` lines 121–137): `FOO` and `FOO && BAR`. -/
def nestedIfdefsPreds : List Expr :=
  [.symbol "FOO", exprAnd (.symbol "FOO") (.symbol "BAR")]

/-- The chunk predicates the `chunks_gated_struct_field` test expects
(`test_chunks.rs` lines 140–166): `EVIL` and `!EVIL`. -/
def gatedStructFieldPreds : List Expr :=
  [.symbol "EVIL", exprNot (.symbol "EVIL")]

/-- The disjunction of a unit's chunk predicates is a tautology over
the free symbols (spec §4.6 invariant, first half). -/
def predsTautology (ps : List Expr) : Prop :=
  ∀ ρ : Expr → Bool, ps.any (evalA ρ) = true

/-- The chunk predicates are pairwise inconsistent (spec §4.6
invariant, second half). -/
def predsPairwiseFalse (ps : List Expr) : Prop :=
  ps.Pairwise (fun p q => ∀ ρ : Expr → Bool, (evalA ρ p && evalA ρ q) = false)

/-! ## Parser-side context (`crates/cpr/src/parser/mod.rs`) -/

/-- `Token` from `crates/cpr/src/parser/mod.rs` (lines 20–28); the
`Punctuator` byte enum is carried as its `char`. -/
inductive PToken where
  | keyword (s : String)
  | identifier (s : String)
  | punctuator (c : Char)
  | integer (i : Int)
  | stringLiteral (s : String)
  | whitespace
deriving DecidableEq

/-- `DefineArguments` (`parser/mod.rs` lines 120–124). -/
structure DefineArguments where
  names : List String
  hasTrailing : Bool
deriving DecidableEq

/-- `Define` (`parser/mod.rs` lines 126–137): `Value` or `Replacement`,
with `TokenStream` as a token list. -/
inductive PDefine where
  | value (name : String) (vtoks : List PToken)
  | replacement (name : String) (args : DefineArguments) (vtoks : List PToken)
deriving DecidableEq

/-- `Define::name` (`parser/mod.rs` lines 206–213). -/
def PDefine.name : PDefine → String
  | .value n _ => n
  | .replacement n _ _ => n

/-- `SymbolState` (`parser/mod.rs` lines 145–151). -/
inductive PSymbolState where
  | unknown
  | undefined
  | defined (ed : Expr × PDefine)
  | multipleDefines (eds : List (Expr × PDefine))

/-- `Context` (`parser/mod.rs` lines 139–143): name → bucket of
`(Expr, Define)` pairs, plus the known-unknown name set. -/
structure PContext where
  defines : List (String × List (Expr × PDefine))
  unknowns : List String

/-- Bucket update used by `Context::push`: append to the name's bucket,
creating it when absent. -/
def pushBucket (ds : List (String × List (Expr × PDefine))) (n : String)
    (ed : Expr × PDefine) : List (String × List (Expr × PDefine)) :=
  match ds with
  | [] => [(n, [ed])]
  | (k, b) :: rest =>
    if k = n then (k, b ++ [ed]) :: rest else (k, b) :: pushBucket rest n ed

/-- `Context::new` (`parser/mod.rs` lines 154–160). -/
def PContext.new : PContext := ⟨[], []⟩

/-- `Context::add_unknown` (`parser/mod.rs` lines 162–164). -/
def PContext.addUnknown (ctx : PContext) (u : String) : PContext :=
  { ctx with unknowns := ctx.unknowns ++ [u] }

/-- `Context::push` (`parser/mod.rs` lines 166–176). -/
def PContext.push (ctx : PContext) (e : Expr) (d : PDefine) : PContext :=
  { ctx with defines := pushBucket ctx.defines d.name (e, d) }

/-- `Context::pop` (`parser/mod.rs` lines 178–180): removes the whole
bucket for the name. -/
def PContext.pop (ctx : PContext) (name : String) : PContext :=
  { ctx with defines := ctx.defines.filter (fun p => ¬ p.1 = name) }

/-- `Context::lookup` (`parser/mod.rs` lines 190–203). An unknown name
is `Undefined` before the defines are even consulted; a bucket with a
single define is `Defined`; any other bucket shape panics ("Multiple
defines are unsupported for now"), modelled as `none`. -/
def PContext.lookup (ctx : PContext) (name : String) : Option PSymbolState :=
  if name ∈ ctx.unknowns then some .undefined
  else
    match ctx.defines.find? (fun p => p.1 == name) with
    | some (_, [ed]) => some (.defined ed)
    | some (_, _) => none
    | none => some .undefined

/-! ## Include resolution (`crates/cpr/src/parser/mod.rs`) -/

/-- A filesystem path, as its component list; `Path::join` appends. -/
abbrev RPath := List String

/-- `Include` (`parser/mod.rs` lines 215–220). -/
inductive Include where
  | system (p : RPath)
  | quoted (p : RPath)
  | tokenStream (ts : List PToken)
deriving DecidableEq

/-- `Include::resolve_system` (`parser/mod.rs` lines 223–232): first
system search path whose joined candidate exists. The filesystem is the
oracle `fs`. -/
def resolveSystem (fs : RPath → Bool) (candidate : RPath) :
    List RPath → Option RPath
  | [] => none
  | path :: rest =>
    let merged := path ++ candidate
    if fs merged then some merged else resolveSystem fs candidate rest

/-- `Include::resolve_quoted` (`parser/mod.rs` lines 234–254): the
current file's directory first, then the quoted search paths (the same
loop shape as `resolve_system`). -/
def resolveQuoted (fs : RPath → Bool) (candidate : RPath)
    (quotedPaths : List RPath) (workingPath : RPath) : Option RPath :=
  let merged := workingPath ++ candidate
  if fs merged then some merged
  else resolveSystem fs candidate quotedPaths

/-- `Include::resolve` (`parser/mod.rs` lines 256–275). The
`TokenStream` arm is `unimplemented!` (a panic), modelled as the outer
`none`. -/
def Include.resolve (inc : Include) (fs : RPath → Bool)
    (systemPaths quotedPaths : List RPath) (workingPath : RPath) :
    Option (Option RPath) :=
  match inc with
  | .system p => some (resolveSystem fs p systemPaths)
  | .quoted p =>
    some ((resolveQuoted fs p quotedPaths workingPath).orElse
      (fun _ => resolveSystem fs p systemPaths))
  | .tokenStream _ => none

/-- `Error` (`parser/mod.rs` lines 277–291), the variants relevant to
resolution. -/
inductive RError where
  | invalidFile
  | ioError
  | utf8Error
  | notFound (inc : Include)
  | synError
  | couldNotKnit (source : String)

/-- `Parser::read_include` (`parser/mod.rs` lines 470–480): resolve,
yielding `Error::NotFound` when resolution fails, else read the file
(reading is modelled by the `contents` oracle; I/O errors are out of
scope here). The outer `none` is the `unimplemented!` panic inherited
from `resolve`. -/
def readInclude (fs : RPath → Bool) (contents : RPath → String)
    (systemPaths quotedPaths : List RPath) (workingPath : RPath)
    (inc : Include) : Option (Except RError String) :=
  match inc.resolve fs systemPaths quotedPaths workingPath with
  | none => none
  | some none => some (.error (.notFound inc))
  | some (some p) => some (.ok (contents p))

/-! ## Claim fixtures and specification-side definitions -/

/-- The context `#define F(x) x(x)`: a function-like macro that applies
its argument to its argument. -/
def divergeCtx : FContext :=
  ⟨[("F", .functionLike "F" ⟨[("x", 0)]⟩
      [.name "x", .pun '(', .name "x", .pun ')'])]⟩

/-- The input `F(F)`. -/
def divergeInput : List Token := [.name "F", .pun '(', .name "F", .pun ')']

/-- The token state the expander reaches after one iteration on
`F(F)` under `divergeCtx` — and then reaches again after every further
iteration: the argument tokens were substituted verbatim, so the inner
`F` still carries an empty hide set. -/
def loopState : List THS :=
  [⟨.name "F", ∅⟩, ⟨.pun '(', {"F"}⟩, ⟨.name "F", ∅⟩, ⟨.pun ')', {"F"}⟩]

/-- The spec's hide-set overlay for a function-like macro invocation
(§4.1): "(hs(first token of invocation) ∩ hs(closing-paren token)) ∪
{M}". -/
def specOverlay (headHs closeHs : HS) (m : String) : HS :=
  (headHs ∩ closeHs) ∪ {m}

/-- A replacement-list token that `subst` emits through its verbatim
branch: not `#`, not `##`, and (when under a parameter binding) not a
bound parameter name. -/
def substPlain (params : Option SubstParams) (t : THS) : Prop :=
  t.tok ≠ .stringize ∧ t.tok ≠ .paste ∧
    ∀ n p, t.tok = .name n → params = some p → p.lookup n = .ok none

/-- A one-parameter binding `{B ↦ 0}` whose pasted actual is empty, as
in `FOO()` for `#define FOO(B) L ## B`. -/
def pasteParams : SubstParams := ⟨⟨[("B", 0)]⟩, [[]]⟩

/-- Interleave whitespace gaps and string tokens after a leading
string: `strChain [(g₁,s₁,h₁),…] rest = g₁ ++ "s₁" ++ … ++ rest`. -/
def strChain (items : List (List THS × String × HS)) (rest : List THS) :
    List THS :=
  match items with
  | [] => rest
  | (gap, s, h) :: more => gap ++ ⟨.str s, h⟩ :: strChain more rest

/-- After the last fused string, the next non-whitespace token (if any)
is not a string, so the fusion loop stops there. -/
def noStrNext (rest : List THS) : Prop :=
  match rest.dropWhile isWS with
  | [] => True
  | t :: _ => ∀ s, t.tok ≠ .str s

/-- An atom of the Boolean reading of an `Expr`: a node that is neither
a literal nor Boolean structure. -/
def isAtomE : Expr → Prop
  | .tru => False
  | .fls => False
  | .integer _ => False
  | .eand _ => False
  | .eor _ => False
  | .enot _ => False
  | _ => True

/-- A sound implicant for minterm set `ms` over `k` atoms: it has one
position per atom and covers only minterms. -/
def cubeSound (ms : List (List Bool)) (k : Nat) (c : Cube) : Prop :=
  c.length = k ∧ ∀ v : List Bool, v.length = k → evalCube c v = true → v ∈ ms

/-! # Theorems -/

/-! ## C1: termination of `expand` -/

theorem loopState_subst :
    subst (some ⟨⟨[("x", 0)]⟩, [[⟨.name "F", ∅⟩]]⟩) (codeOverlay ∅ {"F"} "F")
      (asTHS [.name "x", .pun '(', .name "x", .pun ')']) [] = .ok loopState := by
  simp [subst, asTHS, SubstParams.lookup, FormalParams.get, codeOverlay, hsUnion, hsInter,
    loopState, List.find?]

theorem expandFuel_loopState_step (n : Nat) :
    expandFuel divergeCtx (n + 1) loopState [] = expandFuel divergeCtx n loopState [] := by
  have h : expandFuel divergeCtx (n + 1) loopState []
      = match subst (some ⟨⟨[("x", 0)]⟩, [[⟨.name "F", ∅⟩]]⟩) (codeOverlay ∅ {"F"} "F")
          (asTHS [.name "x", .pun '(', .name "x", .pun ')']) [] with
        | .error e => some (.error e)
        | .ok temp => expandFuel divergeCtx n (temp ++ []) [] := rfl
  rw [h, loopState_subst]
  simp

theorem expandFuel_loopState_none : ∀ n, expandFuel divergeCtx n loopState [] = none := by
  intro n
  induction n with
  | zero => rfl
  | succ m ih => rw [expandFuel_loopState_step]; exact ih

/-- C1: refuted as stated — the spec claims `expand` halts for every
finite context and finite input, but under `#define F(x) x(x)` the
input `F(F)` loops forever: `subst` copies argument tokens verbatim
without extending their hide sets (`iterative.rs` line 506), so the
rescan recreates the identical invocation ad infinitum, and the run
exhausts every fuel bound. -/
theorem expand_diverges_on_self_application :
    ∀ fuel : Nat, expandFuel divergeCtx fuel (asTHS divergeInput) [] = none := by
  intro fuel
  cases fuel with
  | zero => rfl
  | succ n =>
    have h : expandFuel divergeCtx (n + 1) (asTHS divergeInput) []
        = match subst (some ⟨⟨[("x", 0)]⟩, [[⟨.name "F", ∅⟩]]⟩) (codeOverlay ∅ ∅ "F")
            (asTHS [.name "x", .pun '(', .name "x", .pun ')']) [] with
          | .error e => some (.error e)
          | .ok temp => expandFuel divergeCtx n (temp ++ []) [] := rfl
    have h2 : subst (some ⟨⟨[("x", 0)]⟩, [[⟨.name "F", ∅⟩]]⟩) (codeOverlay ∅ ∅ "F")
        (asTHS [.name "x", .pun '(', .name "x", .pun ')']) [] = .ok loopState := by
      simp [subst, asTHS, SubstParams.lookup, FormalParams.get, codeOverlay, hsUnion, hsInter,
        loopState, List.find?]
    rw [h, h2]
    simpa using expandFuel_loopState_none n

/-! ## C2: frozen heads are emitted verbatim -/

/-- C2: if the head token's hide set contains its own name, `expand`
emits the head verbatim — hide set unchanged — and continues with the
rest of the input, never consulting the context for that token
(`iterative.rs` lines 64–72). -/
theorem expand_frozen_head_verbatim (ctx : FContext) (fuel : Nat) (nm : String)
    (hs : HS) (rest os : List THS) (h : nm ∈ hs) :
    expandFuel ctx (fuel + 1) (⟨.name nm, hs⟩ :: rest) os
      = expandFuel ctx fuel rest (os ++ [⟨.name nm, hs⟩]) := by
  simp [expandFuel, THS.hides, h]

theorem expand_frozen_head_verbatim_witness :
    expandFuel divergeCtx 2 [⟨.name "F", {"F"}⟩] []
      = some (.ok [⟨.name "F", {"F"}⟩]) := by
  have h := expand_frozen_head_verbatim divergeCtx 1 "F" {"F"} [] []
    (by simp)
  rw [h]
  rfl

/-! ## C7: division and modulo by zero in constant folding -/

/-- C7: the claim (and spec §4.3/§7) says `Integer / Integer` and
`Integer % Integer` folding with a zero right operand yields
`EvalError::DivisionByZero`; the code (`expr/mod.rs` lines 394–395)
has no error path at all — `constant_fold` returns a bare `Expr` and
performs the Rust `l / r` / `l % r`, which panics on a zero divisor.
The panic is the `none` below; no `EvalError` type exists in the
source. -/
theorem constantFold_div_mod_by_zero_panics (lk : String → CFSymbolState) :
    constantFold lk (.binary .divide (.integer 1) (.integer 0)) = none ∧
    constantFold lk (.binary .modulo (.integer 1) (.integer 0)) = none := by
  constructor <;> simp [constantFold, foldIntBinary, rustDiv, rustMod]

/-! ## C9: context lookup -/

theorem pushBucket_find? (ds : List (String × List (Expr × PDefine))) (n : String)
    (ed : Expr × PDefine) :
    (pushBucket ds n ed).find? (fun p => p.1 == n)
      = some (n, ((((ds.find? (fun p => p.1 == n)).map (·.2)).getD []) ++ [ed])) := by
  induction ds with
  | nil => simp [pushBucket, List.find?]
  | cons kb rest ih =>
    obtain ⟨k, b⟩ := kb
    by_cases h : k = n
    · subst h
      simp [pushBucket, List.find?]
    · have hb : (k == n) = false := by simp [h]
      simp [pushBucket, h, List.find?, hb, ih]

theorem append_two_cons {α : Type} (m : List α) (a b : α) :
    ∃ x y t, (m ++ [a]) ++ [b] = x :: y :: t := by
  induction m with
  | nil => exact ⟨a, b, [], rfl⟩
  | cons h t ih =>
    obtain ⟨x, y, tt, hh⟩ := ih
    exact ⟨h, x, y :: tt, by simp only [List.cons_append, List.cons.injEq, true_and]; exact hh⟩

/-- C9: `Context::lookup` returns `Undefined` for any name in the
unknowns set — the unknowns check precedes the defines map, so a
pushed define is ignored — and panics (`parser/mod.rs` line 199:
"Multiple defines are unsupported for now") whenever a name outside
the unknowns set has two or more defines pushed. -/
theorem context_lookup_unknowns_and_multiple_defines :
    (∀ (ctx : PContext) (name : String) (e : Expr) (d : PDefine),
        name ∈ ctx.unknowns →
          (ctx.push e d).lookup name = some .undefined ∧
          ctx.lookup name = some .undefined) ∧
    (∀ (ctx : PContext) (name : String) (e1 e2 : Expr) (d1 d2 : PDefine),
        name ∉ ctx.unknowns → d1.name = name → d2.name = name →
          ((ctx.push e1 d1).push e2 d2).lookup name = none) := by
  constructor
  · intro ctx name e d h
    constructor <;> simp [PContext.lookup, PContext.push, h]
  · intro ctx name e1 e2 d1 d2 h h1 h2
    have hfind := pushBucket_find? (pushBucket ctx.defines name (e1, d1)) name (e2, d2)
    rw [pushBucket_find? ctx.defines name (e1, d1)] at hfind
    simp only [Option.map_some', Option.getD_some] at hfind
    obtain ⟨x, y, t, hxyt⟩ :=
      append_two_cons (((ctx.defines.find? (fun p => p.1 == name)).map (·.2)).getD [])
        (e1, d1) (e2, d2)
    have hl : ((ctx.push e1 d1).push e2 d2).lookup name
        = if name ∈ ctx.unknowns then some .undefined
          else
            match (pushBucket (pushBucket ctx.defines name (e1, d1)) name
                (e2, d2)).find? (fun p => p.1 == name) with
            | some (_, [ed]) => some (.defined ed)
            | some (_, _) => none
            | none => some .undefined := by
      simp [PContext.lookup, PContext.push, h1, h2]
    rw [hl, if_neg h, hfind, hxyt]

/-! ## C8: include resolution order -/

theorem resolveSystem_eq_find? (fs : RPath → Bool) (c : RPath) :
    ∀ paths : List RPath, resolveSystem fs c paths = (paths.map (· ++ c)).find? fs := by
  intro paths
  induction paths with
  | nil => rfl
  | cons p rest ih =>
    cases h : fs (p ++ c) <;> simp [resolveSystem, List.find?, h, ih]

theorem find?_append_orElse {α : Type} (p : α → Bool) (l1 l2 : List α) :
    ((l1.find? p).orElse (fun _ => l2.find? p)) = (l1 ++ l2).find? p := by
  induction l1 with
  | nil => simp [Option.orElse]
  | cons x xs ih =>
    cases h : p x <;> simp [List.find?, h, Option.orElse] <;> simpa [Option.orElse] using ih

/-- C8: `#include "x"` tries the current file's directory, then the
quoted search paths in order, then the system search paths in order;
`#include <x>` tries only the system paths; the first existing joined
candidate wins, and when resolution fails `read_include` returns
`Error::NotFound(include)`. -/
theorem include_resolution_order :
    (∀ (fs : RPath → Bool) (sys quo : List RPath) (work c : RPath),
        (Include.quoted c).resolve fs sys quo work
          = some (((work :: (quo ++ sys)).map (· ++ c)).find? fs)) ∧
    (∀ (fs : RPath → Bool) (sys quo : List RPath) (work c : RPath),
        (Include.system c).resolve fs sys quo work
          = some ((sys.map (· ++ c)).find? fs)) ∧
    (∀ (fs : RPath → Bool) (contents : RPath → String) (sys quo : List RPath)
        (work : RPath) (inc : Include),
        inc.resolve fs sys quo work = some none →
        readInclude fs contents sys quo work inc = some (.error (.notFound inc))) := by
  refine ⟨?_, ?_, ?_⟩
  · intro fs sys quo work c
    simp only [Include.resolve, resolveQuoted, resolveSystem_eq_find?]
    cases h : fs (work ++ c)
    · simp [h, List.find?, find?_append_orElse, Option.or_eq_orElse]
    · simp [h, List.find?, Option.orElse]
  · intro fs sys quo work c
    simp [Include.resolve, resolveSystem_eq_find?]
  · intro fs contents sys quo work inc h
    simp [readInclude, h]

theorem context_lookup_unknowns_and_multiple_defines_witness :
    ((PContext.new.addUnknown "U").push .tru (.value "U" [])).lookup "U"
        = some .undefined ∧
    ((PContext.new.push .tru (.value "A" [])).push .fls (.value "A" [])).lookup "A"
        = none := by
  constructor
  · exact (context_lookup_unknowns_and_multiple_defines.1
      (PContext.new.addUnknown "U") "U" .tru (.value "U" [])
      (by simp [PContext.new, PContext.addUnknown])).1
  · exact context_lookup_unknowns_and_multiple_defines.2
      PContext.new "A" .tru .fls (.value "A" []) (.value "A" [])
      (by simp [PContext.new]) rfl rfl

theorem include_resolution_order_witness :
    readInclude (fun _ => false) (fun _ => "") [] [] [] (.quoted ["x.h"])
      = some (.error (.notFound (.quoted ["x.h"]))) :=
  include_resolution_order.2.2 (fun _ => false) (fun _ => "") [] [] [] (.quoted ["x.h"]) rfl

/-! ## C6: pasting against an empty actual argument -/

/-- C6 counterexample: for the replacement list `L ## B` with `B` a
parameter whose actual sequence is empty (as in `FOO()` for
`#define FOO(B) L ## B`), `subst` does not emit `L` alone — it fails
with `InvalidTokenPaste` (`iterative.rs` lines 474–481: `rest.next()`
on an empty actual yields `None`, which is turned into the error). -/
theorem subst_paste_empty_actual_counterexample :
    subst (some pasteParams) ∅ [⟨.name "L", ∅⟩, ⟨.paste, ∅⟩, ⟨.name "B", ∅⟩] []
        = .error (.invalidTokenPaste
            "no right-hand-side operand after `##` (after substituting argument)") ∧
    subst (some pasteParams) ∅ [⟨.name "L", ∅⟩, ⟨.paste, ∅⟩, ⟨.name "B", ∅⟩] []
        ≠ .ok [⟨.name "L", ∅⟩] := by
  have h : subst (some pasteParams) ∅
      [⟨.name "L", ∅⟩, ⟨.paste, ∅⟩, ⟨.name "B", ∅⟩] []
      = .error (.invalidTokenPaste
          "no right-hand-side operand after `##` (after substituting argument)") := by
    simp only [subst, pasteParams, SubstParams.lookup, FormalParams.get, popNonWS, isWS,
      List.find?, List.dropWhile]
    rfl
  refine ⟨h, ?_⟩
  rw [h]
  intro hc
  cases hc

/-- C6 amended: when the replacement list continues with `## B` where
`B` is a parameter name whose actual-argument sequence is empty, and a
left operand is available on the output buffer, `subst` fails with
`InvalidTokenPaste` instead of emitting the left operand alone. -/
theorem subst_paste_empty_actual_is_error (p : SubstParams) (hs bhs : HS) (Bn : String)
    (first : THS) (tl rest os : List THS) (lhs : THS) (osr : List THS)
    (hfirst : first.tok = .paste)
    (hnext : tl.dropWhile isWS = ⟨.name Bn, bhs⟩ :: rest)
    (hpop : popNonWS os = some (lhs, osr))
    (hB : p.lookup Bn = .ok (some [])) :
    subst (some p) hs (first :: tl) os
      = .error (.invalidTokenPaste
          "no right-hand-side operand after `##` (after substituting argument)") := by
  obtain ⟨ft, fh⟩ := first
  simp only [THS.tok] at hfirst
  subst hfirst
  simp only [subst]
  split
  · rename_i heq
    rw [hnext] at heq
    cases heq
  · rename_i rhs rest2 heq
    rw [hnext] at heq
    injection heq with h1 h2
    subst h1
    subst h2
    simp only [THS.tok]
    rw [hpop]
    simp [hB]

theorem subst_paste_empty_actual_is_error_witness :
    subst (some pasteParams) {"M"} [⟨.paste, ∅⟩, ⟨.ws, ∅⟩, ⟨.name "B", {"N"}⟩]
        [⟨.name "L", ∅⟩]
      = .error (.invalidTokenPaste
          "no right-hand-side operand after `##` (after substituting argument)") :=
  subst_paste_empty_actual_is_error pasteParams {"M"} {"N"} "B" ⟨.paste, ∅⟩
    [⟨.ws, ∅⟩, ⟨.name "B", {"N"}⟩] [] [⟨.name "L", ∅⟩] ⟨.name "L", ∅⟩ []
    rfl (by simp [isWS, List.dropWhile]) rfl rfl

/-! ## C4: chunk predicate partition -/

/-- C4 counterexample: the chunker's own test `single_atom_strands`
(`test_chunks.rs` lines 105–119) expects the unit's chunk predicates to
be exactly `FOO` and `BAR`; their disjunction is falsified by the
all-false symbol assignment, so the disjunction of a unit's chunk
predicates is not a tautology (and, at the all-true assignment, both
predicates hold simultaneously, so they are not pairwise inconsistent
either). -/
theorem singleAtomStrands_not_partition :
    ¬ (predsTautology singleAtomStrandsPreds ∧
        predsPairwiseFalse singleAtomStrandsPreds) := by
  rintro ⟨ht, _⟩
  have h := ht (fun _ => false)
  simp [singleAtomStrandsPreds, evalA] at h

/-- C4 amended: the partition invariant is not a property of every
unit (see the counterexample: the `single_atom_strands` unit yields
predicates `FOO`, `BAR`); it does hold for units whose chunks split a
single gated region into complementary branches, as in the
`chunks_gated_struct_field` unit (spec scenario 8), whose expected
predicates `EVIL` and `!EVIL` have a tautological disjunction and are
pairwise inconsistent over the free symbols. -/
theorem gatedStructField_partition :
    predsTautology gatedStructFieldPreds ∧ predsPairwiseFalse gatedStructFieldPreds := by
  constructor
  · intro ρ
    cases h : ρ (.symbol "EVIL") <;>
      simp [gatedStructFieldPreds, evalA, exprNot, h]
  · refine List.Pairwise.cons ?_ (List.pairwise_singleton _ _)
    intro q hq ρ
    simp only [List.mem_singleton] at hq
    subst hq
    cases h : ρ (.symbol "EVIL") <;> simp [evalA, exprNot, h]

/-! ## C3: the function-like hide-set overlay -/

theorem codeOverlay_eq_specOverlay (headHs closeHs : HS) (m : String) :
    codeOverlay headHs closeHs m = specOverlay headHs closeHs m := by
  simp only [codeOverlay, specOverlay, hsUnion, hsInter]
  ext x
  simp

/-- C3: (i) the hide-set overlay the code hands to `subst` for a
function-like invocation of `M` is exactly
`(hs(head) ∩ hs(closing paren)) ∪ {M}`: the expansion step under those
invocation conditions substitutes the replacement list under precisely
the spec's overlay; and (ii) every replacement-list token that `subst`
emits verbatim carries its original hide set extended by that overlay
(`iterative.rs` lines 240–243 and 511–516). -/
theorem functionLike_overlay_and_subst_verbatim :
    (∀ (headHs closeHs : HS) (m : String),
        codeOverlay headHs closeHs m = specOverlay headHs closeHs m) ∧
    (∀ (ctx : FContext) (fuel : Nat) (nm dname : String) (hs : HS) (tl os : List THS)
        (dparams : FormalParams) (value : List Token) (ws1 : List THS) (op : THS)
        (rem : List THS) (actuals : List (List THS)) (closeHs : HS) (rem2 : List THS),
        ctx.lookup nm = .defined (.functionLike dname dparams value) →
        ¬ nm ∈ hs →
        skipWS tl = (ws1, some op, rem) →
        op.tok = .pun '(' →
        parseActuals dname rem = .ok (actuals, closeHs, rem2) →
        expandFuel ctx (fuel + 1) (⟨.name nm, hs⟩ :: tl) os
          = match subst (some ⟨dparams, actuals⟩) (specOverlay hs closeHs dname)
              (asTHS value) [] with
            | .error e => some (.error e)
            | .ok temp => expandFuel ctx fuel (temp ++ rem2) os) ∧
    (∀ (params : Option SubstParams) (hs : HS) (ts os : List THS),
        (∀ t ∈ ts, substPlain params t) →
        subst params hs ts os = .ok (os ++ ts.map (fun t => ⟨t.tok, t.hs ∪ hs⟩))) := by
  refine ⟨codeOverlay_eq_specOverlay, ?_, ?_⟩
  · intro ctx fuel nm dname hs tl os dparams value ws1 op rem actuals closeHs rem2
      hlook hhide hskip hop hparse
    rw [← codeOverlay_eq_specOverlay]
    simp only [expandFuel, THS.hides, hhide, THS.tok, hlook, hskip, hop, hparse]
    simp
  · intro params hs ts
    induction ts with
    | nil =>
      intro os h
      simp [subst]
    | cons t ts ih =>
      intro os h
      obtain ⟨h1, h2, h3⟩ := h t (List.mem_cons_self _ _)
      have hrest : ∀ u ∈ ts, substPlain params u := fun u hu => h u (List.mem_cons_of_mem _ hu)
      obtain ⟨tt, th⟩ := t
      simp only [THS.tok] at h1 h2 h3
      have step : subst params hs (⟨tt, th⟩ :: ts) os
          = subst params hs ts (os ++ [⟨tt, th ∪ hs⟩]) := by
        cases tt with
        | stringize => exact absurd rfl h1
        | paste => exact absurd rfl h2
        | name n =>
          cases params with
          | none => simp [subst]
          | some p => simp [subst, h3 n p rfl rfl]
        | _ => simp [subst]
      rw [step]
      have hcont := ih (os ++ [⟨tt, th ∪ hs⟩]) hrest
      rw [hcont]
      simp

theorem functionLike_overlay_and_subst_verbatim_witness :
    (expandFuel divergeCtx 1
        [⟨.name "F", ∅⟩, ⟨.pun '(', ∅⟩, ⟨.name "y", ∅⟩, ⟨.pun ')', ∅⟩] []
      = match subst (some ⟨⟨[("x", 0)]⟩, [[⟨.name "y", ∅⟩]]⟩) (specOverlay ∅ ∅ "F")
          (asTHS [.name "x", .pun '(', .name "x", .pun ')']) [] with
        | .error e => some (.error e)
        | .ok temp => expandFuel divergeCtx 0 (temp ++ []) []) ∧
    subst none {"M"} [⟨.int 7, ∅⟩, ⟨.ws, {"K"}⟩] []
      = .ok [⟨.int 7, ∅ ∪ {"M"}⟩, ⟨.ws, {"K"} ∪ {"M"}⟩] := by
  constructor
  · exact functionLike_overlay_and_subst_verbatim.2.1 divergeCtx 0 "F" "F" ∅
      [⟨.pun '(', ∅⟩, ⟨.name "y", ∅⟩, ⟨.pun ')', ∅⟩] [] ⟨[("x", 0)]⟩
      [.name "x", .pun '(', .name "x", .pun ')'] [] ⟨.pun '(', ∅⟩
      [⟨.name "y", ∅⟩, ⟨.pun ')', ∅⟩] [[⟨.name "y", ∅⟩]] ∅ []
      rfl (by simp) rfl rfl rfl
  · exact functionLike_overlay_and_subst_verbatim.2.2 none {"M"}
      [⟨.int 7, ∅⟩, ⟨.ws, {"K"}⟩] []
      (by
        intro t ht
        simp only [List.mem_cons, List.not_mem_nil, or_false] at ht
        rcases ht with rfl | rfl <;> simp [substPlain])

/-! ## C10: adjacent-string fusion -/

theorem dropWhile_append_ws (gap l : List THS) (h : ∀ t ∈ gap, t.tok = .ws) :
    (gap ++ l).dropWhile isWS = l.dropWhile isWS := by
  induction gap with
  | nil => rfl
  | cons g gs ih =>
    have hg : isWS g = true := by simp [isWS, h g (List.mem_cons_self _ _)]
    simp only [List.cons_append, List.dropWhile_cons, hg, if_true]
    exact ih (fun t ht => h t (List.mem_cons_of_mem _ ht))

set_option maxRecDepth 4000 in
theorem concatStrings_chain (items : List (List THS × String × HS)) :
    ∀ (parts : List String) (hs : HS) (rest : List THS),
      (∀ it ∈ items, ∀ t ∈ it.1, t.tok = .ws) →
      noStrNext rest →
      concatStrings parts hs (strChain items rest)
        = (parts ++ items.map (·.2.1), items.foldl (fun a it => a ∪ it.2.2) hs, rest) := by
  induction items with
  | nil =>
    intro parts hs rest _ hr
    simp only [strChain, List.map_nil, List.append_nil, List.foldl_nil]
    unfold noStrNext at hr
    rw [concatStrings]
    split
    · rfl
    · rename_i t rest2 heq
      rw [heq] at hr
      split
      · rename_i r heqtok
        exact absurd heqtok (hr r)
      · rfl
  | cons it more ih =>
    intro parts hs rest hg hr
    obtain ⟨gap, s', h'⟩ := it
    have hgap : ∀ t ∈ gap, t.tok = .ws := hg _ (List.mem_cons_self _ _)
    have hmore : ∀ u ∈ more, ∀ t ∈ u.1, t.tok = .ws :=
      fun u hu => hg u (List.mem_cons_of_mem _ hu)
    have hdw : (gap ++ ⟨.str s', h'⟩ :: strChain more rest).dropWhile isWS
        = ⟨.str s', h'⟩ :: strChain more rest := by
      rw [dropWhile_append_ws gap _ hgap]
      rfl
    simp only [strChain]
    rw [concatStrings]
    split
    · rename_i heq
      rw [hdw] at heq
      cases heq
    · rename_i t rest2 heq
      rw [hdw] at heq
      injection heq with heq1 heq2
      subst heq1
      subst heq2
      simp only [THS.tok]
      rw [ih (parts ++ [s']) (hsUnion hs h') rest hmore hr]
      simp [hsUnion]

/-- C10: when `expand` meets a string head followed by
whitespace-separated strings, it emits a single `String` token whose
text is the concatenation of all the fused strings' texts with nothing
inserted between them and whose hide set is the union of their hide
sets; the whitespace tokens between consecutive strings are dropped
entirely, and expansion resumes at the first input position that does
not continue the chain (`iterative.rs` lines 89–117). -/
theorem expand_fuses_adjacent_strings (ctx : FContext) (fuel : Nat) (s : String) (hs : HS)
    (items : List (List THS × String × HS)) (rest os : List THS)
    (hgaps : ∀ it ∈ items, ∀ t ∈ it.1, t.tok = .ws)
    (hrest : noStrNext rest) :
    expandFuel ctx (fuel + 1) (⟨.str s, hs⟩ :: strChain items rest) os
      = expandFuel ctx fuel rest
          (os ++ [⟨.str (String.join (s :: items.map (·.2.1))),
                   items.foldl (fun a it => a ∪ it.2.2) hs⟩]) := by
  have hcs := concatStrings_chain items [s] hs rest hgaps hrest
  have h1 : expandFuel ctx (fuel + 1) (⟨.str s, hs⟩ :: strChain items rest) os
      = (match concatStrings [s] hs (strChain items rest) with
         | (parts, hs2, rest2) =>
           expandFuel ctx fuel rest2 (os ++ [⟨.str (String.join parts), hs2⟩])) := rfl
  rw [h1, hcs]
  rfl

theorem expand_fuses_adjacent_strings_witness :
    expandFuel ⟨[]⟩ 1 (⟨.str "foo", ∅⟩ :: strChain [([⟨.ws, ∅⟩], "bar", {"A"})] []) []
      = expandFuel ⟨[]⟩ 0 []
          [⟨.str (String.join ("foo" :: ["bar"])), ∅ ∪ {"A"}⟩] := by
  have h := expand_fuses_adjacent_strings ⟨[]⟩ 0 "foo" ∅ [([⟨.ws, ∅⟩], "bar", {"A"})] [] []
    (by
      intro it hit
      simp only [List.mem_singleton] at hit
      subst hit
      intro t ht
      simp only [List.mem_singleton] at ht
      subst ht
      rfl)
    trivial
  simpa using h

/-! ## C5: faithfulness of the Boolean simplifier

First, structural equality `beqE` is lawful. -/

mutual
theorem beqE_refl : ∀ e : Expr, beqE e e = true
  | .tru => by simp [beqE]
  | .fls => by simp [beqE]
  | .edefined a => by simp [beqE]
  | .symbol a => by simp [beqE]
  | .call c args => by simp [beqE, beqListE_refl args]
  | .binary o l r => by simp [beqE, beqE_refl l, beqE_refl r]
  | .integer i => by simp [beqE]
  | .eand cs => by simp [beqE, beqListE_refl cs]
  | .eor cs => by simp [beqE, beqListE_refl cs]
  | .enot e => by simp [beqE, beqE_refl e]

theorem beqListE_refl : ∀ es : List Expr, beqListE es es = true
  | [] => by simp [beqListE]
  | e :: es => by simp [beqListE, beqE_refl e, beqListE_refl es]
end

mutual
theorem eq_of_beqE : ∀ (a b : Expr), beqE a b = true → a = b
  | a, b, h => by
    cases a <;> cases b <;> simp only [beqE] at h <;>
      try exact absurd h Bool.false_ne_true
    case tru.tru => rfl
    case fls.fls => rfl
    case edefined.edefined a1 a2 => exact congrArg Expr.edefined (eq_of_beq h)
    case symbol.symbol a1 a2 => exact congrArg Expr.symbol (eq_of_beq h)
    case call.call c1 l1 c2 l2 =>
      simp only [Bool.and_eq_true] at h
      obtain ⟨h1, h2⟩ := h
      rw [eq_of_beq h1, eqList_of_beqListE l1 l2 h2]
    case binary.binary o1 l1 r1 o2 l2 r2 =>
      simp only [Bool.and_eq_true] at h
      obtain ⟨⟨h1, h2⟩, h3⟩ := h
      rw [eq_of_beq h1, eq_of_beqE l1 l2 h2, eq_of_beqE r1 r2 h3]
    case integer.integer i1 i2 => exact congrArg Expr.integer (eq_of_beq h)
    case eand.eand l1 l2 => exact congrArg Expr.eand (eqList_of_beqListE l1 l2 h)
    case eor.eor l1 l2 => exact congrArg Expr.eor (eqList_of_beqListE l1 l2 h)
    case enot.enot a1 a2 => exact congrArg Expr.enot (eq_of_beqE a1 a2 h)

theorem eqList_of_beqListE : ∀ (l1 l2 : List Expr), beqListE l1 l2 = true → l1 = l2
  | [], [], _ => rfl
  | [], _ :: _, h => by simp [beqListE] at h
  | _ :: _, [], h => by simp [beqListE] at h
  | x :: xs, y :: ys, h => by
    have h' : beqE x y = true ∧ beqListE xs ys = true := by
      simpa [beqListE, Bool.and_eq_true] using h
    rw [eq_of_beqE x y h'.1, eqList_of_beqListE xs ys h'.2]
end

theorem containsE_cons (x : Expr) (xs : List Expr) (a : Expr) :
    containsE (x :: xs) a = (beqE a x || containsE xs a) := by
  simp [containsE, List.any]

theorem containsE_of_mem {as : List Expr} {a : Expr} (h : a ∈ as) :
    containsE as a = true := by
  induction as with
  | nil => cases h
  | cons x xs ih =>
    rw [containsE_cons]
    rcases List.mem_cons.mp h with rfl | h2
    · simp [beqE_refl]
    · simp [ih h2]

theorem mem_dedupE {as : List Expr} {a : Expr} (h : a ∈ dedupE as) : a ∈ as := by
  induction as with
  | nil => simpa [dedupE] using h
  | cons x xs ih =>
    by_cases hx : containsE xs x
    · rw [dedupE, if_pos hx] at h
      exact List.mem_cons_of_mem _ (ih h)
    · rw [dedupE, if_neg hx] at h
      rcases List.mem_cons.mp h with rfl | h2
      · exact List.mem_cons_self _ _
      · exact List.mem_cons_of_mem _ (ih h2)

theorem containsE_dedupE (as : List Expr) (a : Expr) :
    containsE (dedupE as) a = containsE as a := by
  induction as with
  | nil => rfl
  | cons x xs ih =>
    by_cases hx : containsE xs x
    · rw [dedupE, if_pos hx, ih, containsE_cons]
      by_cases hax : beqE a x
      · obtain rfl := eq_of_beqE a x hax
        simp [hx]
      · simp [hax]
    · rw [dedupE, if_neg hx, containsE_cons, containsE_cons, ih]

theorem vecAssign_map (ρ : Expr → Bool) : ∀ (as : List Expr) (a : Expr),
    containsE as a = true → vecAssign as (as.map ρ) a = ρ a := by
  intro as
  induction as with
  | nil =>
    intro a h
    simp [containsE] at h
  | cons x xs ih =>
    intro a h
    rw [containsE_cons] at h
    by_cases hax : beqE a x
    · obtain rfl := eq_of_beqE a x hax
      simp [vecAssign, indexOfE, beqE_refl]
    · have h2 : containsE xs a = true := by simpa [hax] using h
      have := ih a h2
      simp only [vecAssign, indexOfE, hax, if_false, List.map_cons, List.getD_cons_succ] at *
      exact this

theorem evalA_atom (ρ : Expr → Bool) (a : Expr) (h : isAtomE a) : evalA ρ a = ρ a := by
  cases a <;> simp [isAtomE] at h ⊢ <;> simp [evalA]

mutual
theorem subAtoms_isAtom : ∀ (e a : Expr), a ∈ subAtoms e → isAtomE a
  | .tru, a, h => by simp [subAtoms] at h
  | .fls, a, h => by simp [subAtoms] at h
  | .integer _, a, h => by simp [subAtoms] at h
  | .eand cs, a, h => subAtomsList_isAtom cs a (by simpa [subAtoms] using h)
  | .eor cs, a, h => subAtomsList_isAtom cs a (by simpa [subAtoms] using h)
  | .enot e, a, h => subAtoms_isAtom e a (by simpa [subAtoms] using h)
  | .edefined s, a, h => by
    simp only [subAtoms, List.mem_singleton] at h
    subst h
    trivial
  | .symbol s, a, h => by
    simp only [subAtoms, List.mem_singleton] at h
    subst h
    trivial
  | .call c args, a, h => by
    simp only [subAtoms, List.mem_singleton] at h
    subst h
    trivial
  | .binary o l r, a, h => by
    simp only [subAtoms, List.mem_singleton] at h
    subst h
    trivial

theorem subAtomsList_isAtom : ∀ (es : List Expr) (a : Expr), a ∈ subAtomsList es → isAtomE a
  | [], a, h => by simp [subAtomsList] at h
  | e :: es, a, h => by
    rw [subAtomsList, List.mem_append] at h
    rcases h with h | h
    · exact subAtoms_isAtom e a h
    · exact subAtomsList_isAtom es a h
end

mutual
theorem evalA_congr : ∀ (ρ1 ρ2 : Expr → Bool) (e : Expr),
    (∀ a ∈ subAtoms e, ρ1 a = ρ2 a) → evalA ρ1 e = evalA ρ2 e
  | ρ1, ρ2, .tru, _ => by simp [evalA]
  | ρ1, ρ2, .fls, _ => by simp [evalA]
  | ρ1, ρ2, .integer i, _ => by simp [evalA]
  | ρ1, ρ2, .eand cs, h => by
    simp only [evalA]
    exact evalConj_congr ρ1 ρ2 cs (by simpa [subAtoms] using h)
  | ρ1, ρ2, .eor cs, h => by
    simp only [evalA]
    exact evalDisj_congr ρ1 ρ2 cs (by simpa [subAtoms] using h)
  | ρ1, ρ2, .enot e, h => by
    simp only [evalA]
    rw [evalA_congr ρ1 ρ2 e (by simpa [subAtoms] using h)]
  | ρ1, ρ2, .edefined s, h => by
    simp only [evalA]
    exact h _ (by simp [subAtoms])
  | ρ1, ρ2, .symbol s, h => by
    simp only [evalA]
    exact h _ (by simp [subAtoms])
  | ρ1, ρ2, .call c args, h => by
    simp only [evalA]
    exact h _ (by simp [subAtoms])
  | ρ1, ρ2, .binary o l r, h => by
    simp only [evalA]
    exact h _ (by simp [subAtoms])

theorem evalConj_congr : ∀ (ρ1 ρ2 : Expr → Bool) (es : List Expr),
    (∀ a ∈ subAtomsList es, ρ1 a = ρ2 a) → evalConj ρ1 es = evalConj ρ2 es
  | ρ1, ρ2, [], _ => by simp [evalConj]
  | ρ1, ρ2, e :: es, h => by
    simp only [evalConj]
    rw [evalA_congr ρ1 ρ2 e (fun a ha => h a (by rw [subAtomsList, List.mem_append]; exact .inl ha)),
      evalConj_congr ρ1 ρ2 es (fun a ha => h a (by rw [subAtomsList, List.mem_append]; exact .inr ha))]

theorem evalDisj_congr : ∀ (ρ1 ρ2 : Expr → Bool) (es : List Expr),
    (∀ a ∈ subAtomsList es, ρ1 a = ρ2 a) → evalDisj ρ1 es = evalDisj ρ2 es
  | ρ1, ρ2, [], _ => by simp [evalDisj]
  | ρ1, ρ2, e :: es, h => by
    simp only [evalDisj]
    rw [evalA_congr ρ1 ρ2 e (fun a ha => h a (by rw [subAtomsList, List.mem_append]; exact .inl ha)),
      evalDisj_congr ρ1 ρ2 es (fun a ha => h a (by rw [subAtomsList, List.mem_append]; exact .inr ha))]
end

theorem mem_allVecs : ∀ (k : Nat) (v : List Bool), v ∈ allVecs k ↔ v.length = k := by
  intro k
  induction k with
  | zero =>
    intro v
    cases v <;> simp [allVecs]
  | succ n ih =>
    intro v
    cases v with
    | nil => simp [allVecs]
    | cons b w =>
      simp only [allVecs, List.mem_append, List.mem_map, List.length_cons]
      constructor
      · rintro (⟨u, hu, hequ⟩ | ⟨u, hu, hequ⟩) <;>
          (injection hequ with hb hu2; subst hu2;
           have := (ih _).mp hu; omega)
      · intro hlen
        have hwn : w.length = n := by omega
        cases b
        · exact .inr ⟨w, (ih w).mpr hwn, rfl⟩
        · exact .inl ⟨w, (ih w).mpr hwn, rfl⟩

theorem evalCube_vecCube : ∀ (m v : List Bool), m.length = v.length →
    (evalCube (m.map some) v = true ↔ v = m) := by
  intro m
  induction m with
  | nil =>
    intro v h
    cases v with
    | nil => simp [evalCube]
    | cons b w => simp at h
  | cons x xs ih =>
    intro v h
    cases v with
    | nil => simp at h
    | cons b w =>
      simp only [List.map_cons, evalCube, Bool.and_eq_true, beq_iff_eq, List.cons.injEq,
        ih w (by simpa using h)]
      constructor
      · rintro ⟨rfl, rfl⟩
        exact ⟨rfl, rfl⟩
      · rintro ⟨rfl, rfl⟩
        exact ⟨rfl, rfl⟩

theorem mergeCube_lengths : ∀ (c1 c2 c : Cube), mergeCube c1 c2 = some c →
    c.length = c1.length ∧ c2.length = c1.length := by
  intro c1
  induction c1 with
  | nil =>
    intro c2 c h
    cases c2 <;> simp [mergeCube] at h
  | cons o1 r1 ih =>
    intro c2 c h
    cases c2 with
    | nil => simp [mergeCube] at h
    | cons o2 r2 =>
      simp only [mergeCube] at h
      by_cases ho : o1 = o2
      · rw [if_pos ho] at h
        cases hm : mergeCube r1 r2 with
        | none => rw [hm] at h; cases h
        | some c' =>
          rw [hm] at h
          simp only [Option.map_some', Option.some.injEq] at h
          subst h
          have := ih r2 c' hm
          simp [List.length_cons]
          omega
      · rw [if_neg ho] at h
        cases o1 <;> cases o2 <;> simp only at h <;> try cases h
        by_cases hr : r1 = r2
        · rw [if_pos hr] at h
          simp only [Option.some.injEq] at h
          subst h
          simp [hr]
        · rw [if_neg hr] at h
          cases h

theorem mergeCube_eval : ∀ (c1 c2 c : Cube), mergeCube c1 c2 = some c →
    ∀ v : List Bool, evalCube c v = (evalCube c1 v || evalCube c2 v) := by
  intro c1
  induction c1 with
  | nil =>
    intro c2 c h
    cases c2 <;> simp [mergeCube] at h
  | cons o1 r1 ih =>
    intro c2 c h v
    cases c2 with
    | nil => simp [mergeCube] at h
    | cons o2 r2 =>
      simp only [mergeCube] at h
      by_cases ho : o1 = o2
      · subst ho
        rw [if_pos rfl] at h
        cases hm : mergeCube r1 r2 with
        | none => rw [hm] at h; cases h
        | some c' =>
          rw [hm] at h
          simp only [Option.map_some', Option.some.injEq] at h
          subst h
          cases v with
          | nil => cases o1 <;> simp [evalCube]
          | cons b w =>
            cases o1 with
            | none => simp [evalCube, ih r2 c' hm w]
            | some x =>
              simp [evalCube, ih r2 c' hm w, Bool.and_or_distrib_left]
      · rw [if_neg ho] at h
        cases o1 with
        | none => cases o2 <;> simp only at h <;> cases h
        | some x =>
          cases o2 with
          | none => simp only at h; cases h
          | some y =>
            simp only at h
            by_cases hr : r1 = r2
            · rw [if_pos hr] at h
              simp only [Option.some.injEq] at h
              subst h
              subst hr
              have hxy : x ≠ y := fun hc => ho (by rw [hc])
              cases v with
              | nil => simp [evalCube]
              | cons b w =>
                simp only [evalCube]
                cases x <;> cases y <;> cases b <;> simp_all
            · rw [if_neg hr] at h
              cases h

theorem mem_foldr_append {α β : Type} (g : α → List β) (l : List α) (x : β) :
    x ∈ l.foldr (fun a acc => g a ++ acc) [] ↔ ∃ a ∈ l, x ∈ g a := by
  induction l with
  | nil => simp
  | cons a as ih => simp [ih]

theorem mem_mergeRound {c : Cube} {cubes : List Cube} (h : c ∈ mergeRound cubes) :
    ∃ c1 ∈ cubes, ∃ c2 ∈ cubes, mergeCube c1 c2 = some c := by
  unfold mergeRound at h
  rw [List.mem_dedup, mem_foldr_append] at h
  obtain ⟨c1, hc1, hmem⟩ := h
  obtain ⟨c2, hc2, hmerge⟩ := List.mem_filterMap.mp hmem
  exact ⟨c1, hc1, c2, hc2, hmerge⟩

theorem qmGo_sound (ms : List (List Bool)) (k : Nat) :
    ∀ (n : Nat) (cubes : List Cube), (∀ c ∈ cubes, cubeSound ms k c) →
      ∀ c ∈ qmGo n cubes, cubeSound ms k c := by
  intro n
  induction n with
  | zero =>
    intro cubes h c hc
    exact h c hc
  | succ m ih =>
    intro cubes h c hc
    rw [qmGo] at hc
    by_cases hm : (mergeRound cubes).isEmpty
    · rw [if_pos hm] at hc
      exact h c hc
    · rw [if_neg hm] at hc
      rcases List.mem_append.mp hc with hc | hc
      · exact h c (List.mem_filter.mp hc).1
      · refine ih (mergeRound cubes) ?_ c hc
        intro c' hc'
        obtain ⟨c1, hc1, c2, hc2, hmerge⟩ := mem_mergeRound hc'
        have s1 := h c1 hc1
        have s2 := h c2 hc2
        have hlen := mergeCube_lengths c1 c2 c' hmerge
        refine ⟨by rw [hlen.1, s1.1], ?_⟩
        intro v hv hev
        rw [mergeCube_eval c1 c2 c' hmerge v] at hev
        simp only [Bool.or_eq_true] at hev
        rcases hev with he | he
        · exact s1.2 v hv he
        · exact s2.2 v hv he

theorem find?_pred {α : Type} (p : α → Bool) (l : List α) (a : α)
    (h : l.find? p = some a) : p a = true :=
  List.find?_some h

theorem selectCover_props (ms : List (List Bool)) (k : Nat) (primes : List Cube)
    (hp : ∀ c ∈ primes, cubeSound ms k c) :
    ∀ (vs : List (List Bool)) (chosen : List Cube),
      (∀ v ∈ vs, v ∈ ms) → (∀ v ∈ vs, v.length = k) →
      (∀ c ∈ chosen, cubeSound ms k c) →
      (∀ c ∈ vs.foldl (selStep primes) chosen, cubeSound ms k c) ∧
      (∀ c ∈ chosen, c ∈ vs.foldl (selStep primes) chosen) ∧
      (∀ v ∈ vs, ∃ c ∈ vs.foldl (selStep primes) chosen, evalCube c v = true) := by
  intro vs
  induction vs with
  | nil =>
    intro chosen _ _ hch
    refine ⟨by simpa using hch, by simp, by simp⟩
  | cons v vs ih =>
    intro chosen hms hlen hch
    have hvms : v ∈ ms := hms v (List.mem_cons_self _ _)
    have hvlen : v.length = k := hlen v (List.mem_cons_self _ _)
    have hms' : ∀ u ∈ vs, u ∈ ms := fun u hu => hms u (List.mem_cons_of_mem _ hu)
    have hlen' : ∀ u ∈ vs, u.length = k := fun u hu => hlen u (List.mem_cons_of_mem _ hu)
    have hch' : ∀ c ∈ selStep primes chosen v, cubeSound ms k c := by
      intro c hc
      unfold selStep at hc
      by_cases hany : chosen.any (fun c => evalCube c v)
      · rw [if_pos hany] at hc
        exact hch c hc
      · rw [if_neg hany] at hc
        split at hc
        · rename_i cp hfind
          rcases List.mem_append.mp hc with hc | hc
          · exact hch c hc
          · rw [List.mem_singleton] at hc
            subst hc
            exact hp c (List.mem_of_find?_eq_some hfind)
        · rcases List.mem_append.mp hc with hc | hc
          · exact hch c hc
          · rw [List.mem_singleton] at hc
            subst hc
            refine ⟨by simp [hvlen], ?_⟩
            intro w hw hew
            have := (evalCube_vecCube v w (by rw [hvlen, hw])).mp hew
            subst this
            exact hvms
    have hsub : ∀ c ∈ chosen, c ∈ selStep primes chosen v := by
      intro c hc
      unfold selStep
      by_cases hany : chosen.any (fun c => evalCube c v)
      · rwa [if_pos hany]
      · rw [if_neg hany]
        split
        · exact List.mem_append_left _ hc
        · exact List.mem_append_left _ hc
    have hcov : ∃ c ∈ selStep primes chosen v, evalCube c v = true := by
      unfold selStep
      by_cases hany : chosen.any (fun c => evalCube c v)
      · obtain ⟨c, hc, he⟩ := List.any_eq_true.mp hany
        rw [if_pos hany]
        exact ⟨c, hc, he⟩
      · rw [if_neg hany]
        split
        · rename_i cp hfind
          have hecp := find?_pred (fun c => evalCube c v) primes cp hfind
          exact ⟨cp, List.mem_append_right _ (List.mem_singleton_self _), by simpa using hecp⟩
        · refine ⟨v.map some, List.mem_append_right _ (List.mem_singleton_self _), ?_⟩
          exact (evalCube_vecCube v v rfl).mpr rfl
    obtain ⟨ih1, ih2, ih3⟩ := ih (selStep primes chosen v) hms' hlen' hch'
    refine ⟨by simpa [List.foldl_cons] using ih1, ?_, ?_⟩
    · intro c hc
      simpa [List.foldl_cons] using ih2 c (hsub c hc)
    · intro u hu
      rcases List.mem_cons.mp hu with rfl | hu2
      · obtain ⟨c, hc, he⟩ := hcov
        exact ⟨c, by simpa [List.foldl_cons] using ih2 c hc, he⟩
      · simpa [List.foldl_cons] using ih3 u hu2

theorem evalConj_append (ρ : Expr → Bool) (l1 l2 : List Expr) :
    evalConj ρ (l1 ++ l2) = (evalConj ρ l1 && evalConj ρ l2) := by
  induction l1 with
  | nil => simp [evalConj]
  | cons e es ih => simp [evalConj, ih, Bool.and_assoc]

theorem evalDisj_append (ρ : Expr → Bool) (l1 l2 : List Expr) :
    evalDisj ρ (l1 ++ l2) = (evalDisj ρ l1 || evalDisj ρ l2) := by
  induction l1 with
  | nil => simp [evalDisj]
  | cons e es ih => simp [evalDisj, ih, Bool.or_assoc]

theorem evalA_exprAnd (ρ : Expr → Bool) (a b : Expr) :
    evalA ρ (exprAnd a b) = (evalA ρ a && evalA ρ b) := by
  cases a <;> cases b <;>
    simp [exprAnd, evalA, evalConj, evalConj_append, Bool.and_comm, Bool.and_assoc,
      Bool.and_left_comm]

theorem evalA_exprOr (ρ : Expr → Bool) (a b : Expr) :
    evalA ρ (exprOr a b) = (evalA ρ a || evalA ρ b) := by
  cases a <;> cases b <;>
    simp [exprOr, evalA, evalDisj, evalDisj_append, Bool.or_comm, Bool.or_assoc,
      Bool.or_left_comm]

theorem evalA_exprNot (ρ : Expr → Bool) (a : Expr) :
    evalA ρ (exprNot a) = !evalA ρ a := by
  cases a <;> simp [exprNot, evalA]

theorem cubeExpr_go (ρ : Expr → Bool) : ∀ (as : List Expr) (c : Cube) (acc : Expr),
    c.length = as.length → (∀ a ∈ as, evalA ρ a = ρ a) →
    evalA ρ ((as.zip c).foldl litStep acc)
      = (evalA ρ acc && evalCube c (as.map ρ)) := by
  intro as
  induction as with
  | nil =>
    intro c acc hlen hat
    cases c with
    | nil => simp [evalCube]
    | cons o r => simp at hlen
  | cons a as ih =>
    intro c acc hlen hat
    cases c with
    | nil => simp at hlen
    | cons o r =>
      have hata : evalA ρ a = ρ a := hat a (List.mem_cons_self _ _)
      have hat' : ∀ x ∈ as, evalA ρ x = ρ x := fun x hx => hat x (List.mem_cons_of_mem _ hx)
      have hlen' : r.length = as.length := by simpa using hlen
      simp only [List.zip_cons_cons, List.foldl_cons, List.map_cons]
      rw [ih r (litStep acc (a, o)) hlen' hat']
      cases o with
      | none => simp [litStep, evalCube]
      | some x =>
        cases x <;> cases hρ : ρ a <;>
          simp [litStep, evalA_exprAnd, evalA_exprNot, evalCube, hata, hρ, Bool.and_assoc]

theorem lowerCover_go (ρ : Expr → Bool) (as : List Expr) :
    ∀ (cover : List Cube) (acc : Expr),
      (∀ c ∈ cover, c.length = as.length) → (∀ a ∈ as, evalA ρ a = ρ a) →
      evalA ρ (cover.foldl (orStep as) acc)
        = (evalA ρ acc || cover.any (fun c => evalCube c (as.map ρ))) := by
  intro cover
  induction cover with
  | nil =>
    intro acc _ _
    simp
  | cons c cs ih =>
    intro acc hlen hat
    simp only [List.foldl_cons, List.any_cons]
    rw [ih (orStep as acc c) (fun x hx => hlen x (List.mem_cons_of_mem _ hx)) hat]
    rw [orStep, evalA_exprOr]
    rw [cubeExpr, cubeExpr_go ρ as c .tru (hlen c (List.mem_cons_self _ _)) hat]
    simp [evalA, Bool.or_assoc]

theorem simplify_step_any (e : Expr) (ρ : Expr → Bool)
    (hsound : ∀ c ∈ selectCover
        (qmGo (atomTable e).length ((mintermList e).map (·.map some))) (mintermList e),
      cubeSound (mintermList e) (atomTable e).length c)
    (hatoms : ∀ a ∈ atomTable e, evalA ρ a = ρ a) :
    evalA ρ (simplify e)
      = (selectCover (qmGo (atomTable e).length ((mintermList e).map (·.map some)))
          (mintermList e)).any (fun c => evalCube c ((atomTable e).map ρ)) := by
  rw [simplify, lowerCover,
    lowerCover_go ρ (atomTable e) _ .fls (fun c hc => (hsound c hc).1) hatoms]
  simp [evalA]

/-- C5: the spec-modelled simplifier is faithful — for every expression
and every assignment of its atoms, `simplify e` evaluates exactly as
`e` does; and whenever `e.truthiness` is `some b`, so is
`(simplify e).truthiness`. -/
theorem simplify_faithful :
    (∀ (e : Expr) (ρ : Expr → Bool), evalA ρ (simplify e) = evalA ρ e) ∧
    (∀ (e : Expr) (b : Bool), e.truthiness = some b → (simplify e).truthiness = some b) := by
  have has_atoms : ∀ (e : Expr) (ρ : Expr → Bool) (a : Expr), a ∈ atomTable e →
      evalA ρ a = ρ a := by
    intro e ρ a ha
    exact evalA_atom ρ a (subAtoms_isAtom e a (mem_dedupE ha))
  have hms_len : ∀ (e : Expr) (v : List Bool), v ∈ mintermList e →
      v.length = (atomTable e).length := by
    intro e v hv
    exact (mem_allVecs _ v).mp (List.mem_filter.mp hv).1
  have hprops : ∀ e : Expr,
      (∀ c ∈ selectCover
          (qmGo (atomTable e).length ((mintermList e).map (·.map some))) (mintermList e),
        cubeSound (mintermList e) (atomTable e).length c) ∧
      (∀ v ∈ mintermList e, ∃ c ∈ selectCover
          (qmGo (atomTable e).length ((mintermList e).map (·.map some))) (mintermList e),
        evalCube c v = true) := by
    intro e
    have hinit : ∀ c ∈ (mintermList e).map (·.map some),
        cubeSound (mintermList e) (atomTable e).length c := by
      intro c hc
      obtain ⟨v, hv, rfl⟩ := List.mem_map.mp hc
      refine ⟨by simp [hms_len e v hv], ?_⟩
      intro w hw hew
      have heq := (evalCube_vecCube v w (by rw [hms_len e v hv, hw])).mp hew
      subst heq
      exact hv
    have hprimes := qmGo_sound (mintermList e) (atomTable e).length
      (atomTable e).length _ hinit
    obtain ⟨h1, _, h3⟩ := selectCover_props (mintermList e) (atomTable e).length _
      hprimes (mintermList e) [] (fun v hv => hv) (hms_len e) (by simp)
    exact ⟨h1, h3⟩
  have hmem_iff : ∀ (e : Expr) (ρ : Expr → Bool),
      (((atomTable e).map ρ) ∈ mintermList e ↔ evalA ρ e = true) := by
    intro e ρ
    have hagree : evalA (vecAssign (atomTable e) ((atomTable e).map ρ)) e = evalA ρ e := by
      apply evalA_congr
      intro a ha
      refine vecAssign_map ρ (atomTable e) a ?_
      rw [atomTable, containsE_dedupE]
      exact containsE_of_mem ha
    rw [mintermList, List.mem_filter, mem_allVecs]
    constructor
    · intro ⟨_, hp⟩
      rw [← hagree]
      simpa using hp
    · intro hE
      refine ⟨by simp, ?_⟩
      simpa [hagree] using hE
  have main : ∀ (e : Expr) (ρ : Expr → Bool), evalA ρ (simplify e) = evalA ρ e := by
    intro e ρ
    obtain ⟨hsound, hcover⟩ := hprops e
    rw [simplify_step_any e ρ hsound (has_atoms e ρ)]
    cases hE : evalA ρ e with
    | true =>
      obtain ⟨c, hc, hec⟩ := hcover _ ((hmem_iff e ρ).mpr hE)
      exact List.any_eq_true.mpr ⟨c, hc, hec⟩
    | false =>
      apply Bool.eq_false_iff.mpr
      intro hany
      obtain ⟨c, hc, hec⟩ := List.any_eq_true.mp hany
      have hw : ((atomTable e).map ρ) ∈ mintermList e :=
        (hsound c hc).2 _ (by simp) hec
      rw [(hmem_iff e ρ).mp hw] at hE
      cases hE
  have key : ∀ e : Expr, subAtoms e = [] →
      simplify e = if evalA (vecAssign [] []) e = true then Expr.tru else Expr.fls := by
    intro e hsub
    rw [simplify, atomTable, mintermList, atomTable, hsub]
    cases hpred : evalA (vecAssign [] []) e
    · simp [dedupE, allVecs, List.filter, hpred, qmGo, selectCover, lowerCover]
    · simp [dedupE, allVecs, List.filter, hpred, qmGo, selectCover, selStep, lowerCover,
        orStep, cubeExpr, litStep, evalCube, exprOr, List.find?]
  refine ⟨main, ?_⟩
  intro e b hb
  cases e with
  | tru =>
    simp only [Expr.truthiness, Option.some.injEq] at hb
    subst hb
    rw [key .tru (by simp [subAtoms])]
    simp [evalA, Expr.truthiness]
  | fls =>
    simp only [Expr.truthiness, Option.some.injEq] at hb
    subst hb
    rw [key .fls (by simp [subAtoms])]
    simp [evalA, Expr.truthiness]
  | integer i =>
    simp only [Expr.truthiness, Option.some.injEq] at hb
    subst hb
    rw [key (.integer i) (by simp [subAtoms])]
    have hv : evalA (vecAssign [] []) (.integer i) = decide (i ≠ 0) := by simp [evalA]
    cases hd : decide (i ≠ 0) <;> simp [hv, hd, Expr.truthiness]
  | edefined s => simp [Expr.truthiness] at hb
  | symbol s => simp [Expr.truthiness] at hb
  | call c args => simp [Expr.truthiness] at hb
  | binary o l r => simp [Expr.truthiness] at hb
  | eand cs => simp [Expr.truthiness] at hb
  | eor cs => simp [Expr.truthiness] at hb
  | enot x => simp [Expr.truthiness] at hb

theorem simplify_faithful_witness :
    (evalA (fun _ => true) (simplify (.eand [.symbol "a", .enot (.symbol "a")]))
        = evalA (fun _ => true) (.eand [.symbol "a", .enot (.symbol "a")])) ∧
    (simplify (.integer 5)).truthiness = some true := by
  constructor
  · exact simplify_faithful.1 (.eand [.symbol "a", .enot (.symbol "a")]) (fun _ => true)
  · exact simplify_faithful.2 (.integer 5) true rfl

end Cpr
